import Mathlib

/-!
# BioSeq Toolkit — verification of the sequence-analysis core

Shallow embedding of `src/app.py` and of the library routines it delegates
to (Biopython `gc_fraction`, `Seq.translate(to_stop=True)` with the standard
genetic code and IUPAC ambiguity resolution, `SeqIO.parse` for FASTA, and
pandas `value_counts().sort_index()` for base composition).

Sequences are lists of characters; machine floats are replaced by exact
rationals (the arithmetic involved is a single division and a scaling by
100, which floats perform exactly enough for the properties at stake to be
about the rational values).
-/

deriving instance DecidableEq for Except

namespace BioSeq

/-! ## GC content: Bio.SeqUtils.gc_fraction, default ambiguous="remove"

`gc = sum(seq.count(x) for x in "CGScgs")`;
with the default mode the length is `gc + sum(seq.count(x) for x in "ATWatw")`;
returns 0 when that length is 0, else `gc / length`. -/

def gcCount (s : List Char) : Nat :=
  s.count 'C' + s.count 'G' + s.count 'S' +
    s.count 'c' + s.count 'g' + s.count 's'

def atwCount (s : List Char) : Nat :=
  s.count 'A' + s.count 'T' + s.count 'W' +
    s.count 'a' + s.count 't' + s.count 'w'

def gc_fraction (s : List Char) : ℚ :=
  let gc := gcCount s
  let length := gc + atwCount s
  if length = 0 then 0 else (gc : ℚ) / (length : ℚ)

/-! ## Translation: Bio.Seq.translate(to_stop=True), standard table

The standard (NCBI table 1) forward table over unambiguous DNA codons;
the three stop codons TAA, TAG, TGA are not in the forward table. -/

def stdForward : Char → Char → Char → Option Char
  | 'T', 'T', 'T' => some 'F'
  | 'T', 'T', 'C' => some 'F'
  | 'T', 'T', 'A' => some 'L'
  | 'T', 'T', 'G' => some 'L'
  | 'C', 'T', 'T' => some 'L'
  | 'C', 'T', 'C' => some 'L'
  | 'C', 'T', 'A' => some 'L'
  | 'C', 'T', 'G' => some 'L'
  | 'A', 'T', 'T' => some 'I'
  | 'A', 'T', 'C' => some 'I'
  | 'A', 'T', 'A' => some 'I'
  | 'A', 'T', 'G' => some 'M'
  | 'G', 'T', 'T' => some 'V'
  | 'G', 'T', 'C' => some 'V'
  | 'G', 'T', 'A' => some 'V'
  | 'G', 'T', 'G' => some 'V'
  | 'T', 'C', 'T' => some 'S'
  | 'T', 'C', 'C' => some 'S'
  | 'T', 'C', 'A' => some 'S'
  | 'T', 'C', 'G' => some 'S'
  | 'C', 'C', 'T' => some 'P'
  | 'C', 'C', 'C' => some 'P'
  | 'C', 'C', 'A' => some 'P'
  | 'C', 'C', 'G' => some 'P'
  | 'A', 'C', 'T' => some 'T'
  | 'A', 'C', 'C' => some 'T'
  | 'A', 'C', 'A' => some 'T'
  | 'A', 'C', 'G' => some 'T'
  | 'G', 'C', 'T' => some 'A'
  | 'G', 'C', 'C' => some 'A'
  | 'G', 'C', 'A' => some 'A'
  | 'G', 'C', 'G' => some 'A'
  | 'T', 'A', 'T' => some 'Y'
  | 'T', 'A', 'C' => some 'Y'
  | 'C', 'A', 'T' => some 'H'
  | 'C', 'A', 'C' => some 'H'
  | 'C', 'A', 'A' => some 'Q'
  | 'C', 'A', 'G' => some 'Q'
  | 'A', 'A', 'T' => some 'N'
  | 'A', 'A', 'C' => some 'N'
  | 'A', 'A', 'A' => some 'K'
  | 'A', 'A', 'G' => some 'K'
  | 'G', 'A', 'T' => some 'D'
  | 'G', 'A', 'C' => some 'D'
  | 'G', 'A', 'A' => some 'E'
  | 'G', 'A', 'G' => some 'E'
  | 'T', 'G', 'T' => some 'C'
  | 'T', 'G', 'C' => some 'C'
  | 'T', 'G', 'G' => some 'W'
  | 'C', 'G', 'T' => some 'R'
  | 'C', 'G', 'C' => some 'R'
  | 'C', 'G', 'A' => some 'R'
  | 'C', 'G', 'G' => some 'R'
  | 'A', 'G', 'T' => some 'S'
  | 'A', 'G', 'C' => some 'S'
  | 'A', 'G', 'A' => some 'R'
  | 'A', 'G', 'G' => some 'R'
  | 'G', 'G', 'T' => some 'G'
  | 'G', 'G', 'C' => some 'G'
  | 'G', 'G', 'A' => some 'G'
  | 'G', 'G', 'G' => some 'G'
  | _, _, _ => none

def isStdStop : Char → Char → Char → Bool
  | 'T', 'A', 'A' => true
  | 'T', 'A', 'G' => true
  | 'T', 'G', 'A' => true
  | _, _, _ => false

/-- IUPAC ambiguous nucleotide expansions (Bio.Data.IUPACData
`ambiguous_dna_values`, with `U` read as `T` as in the generic table).
`none` for a character that is not a valid (upper-case) nucleotide letter. -/
def nucExpand : Char → Option (List Char)
  | 'A' => some ['A']
  | 'C' => some ['C']
  | 'G' => some ['G']
  | 'T' => some ['T']
  | 'U' => some ['T']
  | 'M' => some ['A', 'C']
  | 'R' => some ['A', 'G']
  | 'W' => some ['A', 'T']
  | 'S' => some ['C', 'G']
  | 'Y' => some ['C', 'T']
  | 'K' => some ['G', 'T']
  | 'V' => some ['A', 'C', 'G']
  | 'H' => some ['A', 'C', 'T']
  | 'D' => some ['A', 'G', 'T']
  | 'B' => some ['C', 'G', 'T']
  | 'X' => some ['G', 'A', 'T', 'C']
  | 'N' => some ['G', 'A', 'T', 'C']
  | _ => none

/-- Bio.Data.IUPACData `extended_protein_values`: which amino-acid letters an
ambiguous protein letter may stand for. -/
def extendedProteinValues : List (Char × List Char) :=
  [('A', ['A']), ('B', ['N', 'D']), ('C', ['C']), ('D', ['D']), ('E', ['E']),
   ('F', ['F']), ('G', ['G']), ('H', ['H']), ('I', ['I']), ('J', ['I', 'L']),
   ('K', ['K']), ('L', ['L']), ('M', ['M']), ('N', ['N']), ('O', ['O']),
   ('P', ['P']), ('Q', ['Q']), ('R', ['R']), ('S', ['S']), ('T', ['T']),
   ('U', ['U']), ('V', ['V']), ('W', ['W']),
   ('X', ['A', 'C', 'D', 'E', 'F', 'G', 'H', 'I', 'K', 'L', 'M', 'N', 'P',
          'Q', 'R', 'S', 'T', 'V', 'W', 'Y']),
   ('Y', ['Y']), ('Z', ['Q', 'E'])]

/-- Bio.Data.CodonTable.AmbiguousForwardTable cover resolution: among the
ambiguous protein letters whose value set covers every possible amino acid of
the codon, return the most specific one (fewest possible values); `X` covers
all standard amino acids, so some cover always exists for standard codons. -/
def coverLetter (aas : List Char) : Char :=
  let cands := extendedProteinValues.filter fun lv => aas.all fun a => lv.2.contains a
  match cands.foldl
      (fun best lv =>
        match best with
        | none => some lv
        | some b => if lv.2.length < b.2.length then some lv else some b)
      none with
  | some b => b.1
  | none => 'X'

/-- Outcome of looking one codon up during `_translate_str` on the ambiguous
generic table: an amino-acid character to append, a definite stop, or a
translation failure (some character is not a valid nucleotide letter). -/
inductive CodonResult where
  | aa (a : Char)
  | stop
  | invalid
  deriving DecidableEq, Repr

/-- One codon of `_translate_str` with the ambiguous standard table:
expand each position, collect the concrete codons; if every expansion is a
stop codon the codon is a definite stop (`to_stop=True` terminates there);
if expansions mix stops and amino acids the position symbol `X` is emitted;
if the expansions code a unique amino acid it is emitted; otherwise the
ambiguous-protein cover (`X` in the generic case) is emitted. -/
def codonLookup (c1 c2 c3 : Char) : CodonResult :=
  match nucExpand c1, nucExpand c2, nucExpand c3 with
  | some e1, some e2, some e3 =>
      let codons := e1.flatMap fun a => e2.flatMap fun b => e3.map fun c => (a, b, c)
      let stops := codons.filter fun t => isStdStop t.1 t.2.1 t.2.2
      let aas := (codons.filterMap fun t => stdForward t.1 t.2.1 t.2.2).dedup
      if stops.isEmpty then
        match aas with
        | [a] => .aa a
        | _ => .aa (coverLetter aas)
      else if aas.isEmpty then .stop
      else .aa 'X'
  | _, _, _ => .invalid

/-- Codon loop of `_translate_str` with `to_stop=True`: walk non-overlapping
3-character windows from position 0 (a trailing window shorter than 3 is
ignored, matching `range(0, n - n % 3, 3)`); stop at the first definite stop
codon, excluding the stop marker from the output; raise (`.error`) on an
invalid letter. -/
def translateAux : List Char → Except Unit (List Char)
  | c1 :: c2 :: c3 :: rest =>
      match codonLookup c1 c2 c3 with
      | .invalid => .error ()
      | .stop => .ok []
      | .aa a => (translateAux rest).map fun p => a :: p
  | _ => .ok []

/-- `Seq.translate(to_stop=True)`: `_translate_str` upper-cases the sequence
before the codon loop. -/
def translateToStop (s : List Char) : Except Unit (List Char) :=
  translateAux (s.map Char.toUpper)

/-! ## Base composition: pd.Series(list(seq)).value_counts().sort_index()

The resulting table has one row per distinct character of the full
(untrimmed) sequence, keyed by the character, ordered by key ascending,
valued by its number of occurrences. Case is preserved verbatim. -/

def baseCounts (s : List Char) : List (Char × Nat) :=
  (List.insertionSort (fun a b : Char => a ≤ b) s.dedup).map fun c => (c, s.count c)

/-! ## analyze_sequence -/

/-- `codon_len = len(seq) - (len(seq) % 3)` -/
def codonLen (s : List Char) : Nat :=
  s.length - s.length % 3

structure AnalysisResult where
  gc : ℚ
  protein : List Char
  baseDf : List (Char × Nat)
  trimmed : Bool
  deriving DecidableEq, Repr

/-- `analyze_sequence` of src/app.py: GC percentage, translation of the
sequence trimmed to a multiple of three, base-composition table of the full
sequence, and the trimming flag `codon_len != len(seq)`. A translation
failure propagates as the Python exception would. -/
def analyze_sequence (seq : List Char) : Except Unit AnalysisResult :=
  let gc := gc_fraction seq * 100
  let trimmed_seq := seq.take (codonLen seq)
  (translateToStop trimmed_seq).map fun protein =>
    { gc := gc
      protein := protein
      baseDf := baseCounts seq
      trimmed := codonLen seq != seq.length }

/-! ## FASTA parsing: Bio.SeqIO.parse(handle, "fasta")

`SimpleFastaParser` skips any text before the first line starting with
a greater-than sign; a record's title is the rest of that line with trailing
whitespace removed; the record's sequence is the concatenation of the
following lines (each with trailing whitespace removed, and with spaces and
carriage returns removed). `FastaIterator` takes the first
whitespace-separated word of the title as the record id. -/

/-- Splitting a character stream at newlines (the pieces keep no newline). -/
def splitOnNl : List Char → List (List Char)
  | [] => [[]]
  | c :: cs =>
      if c = '\n' then [] :: splitOnNl cs
      else
        match splitOnNl cs with
        | l :: ls => (c :: l) :: ls
        | [] => [[c]]

/-- The lines Python's text-stream iteration yields, without their
terminating newline: a trailing newline does not produce a final empty
line. -/
def pyLines (text : List Char) : List (List Char) :=
  let parts := splitOnNl text
  if parts.getLast? = some [] then parts.dropLast else parts

/-- `line[0] == ">"` (a line the iterator yields is never the empty string,
but a blank line arrives as just its newline, which is not `>`). -/
def isHeader : List Char → Bool
  | c :: _ => c = '>'
  | [] => false

/-- `str.rstrip()` (over the whitespace characters Lean knows about). -/
def rstrip (l : List Char) : List Char :=
  (l.reverse.dropWhile Char.isWhitespace).reverse

/-- Sequence assembly of `SimpleFastaParser`: join the lines (each already
stripped of trailing whitespace) and remove every space and carriage
return. -/
def joinSeqLines (ls : List (List Char)) : List Char :=
  ((ls.map rstrip).flatten).filter fun c => !(c = ' ' || c = '\r')

/-- `title.split(None, 1)[0]` with the empty fallback of `FastaIterator`:
the first whitespace-delimited word of the title. -/
def firstWord (title : List Char) : List Char :=
  (title.dropWhile Char.isWhitespace).takeWhile fun c => !c.isWhitespace

/-- Accumulate the body lines of the current record (whose title is given)
until the next header line or the end of input. -/
def collectRecords : List (List Char) → List Char → List (List Char) →
    List (List Char × List Char)
  | [], title, acc => [(firstWord title, joinSeqLines acc.reverse)]
  | l :: ls, title, acc =>
      if isHeader l then
        (firstWord title, joinSeqLines acc.reverse) ::
          collectRecords ls (rstrip (l.drop 1)) []
      else
        collectRecords ls title (l :: acc)

/-- `list(SeqIO.parse(stringio, "fasta"))` as a list of (id, sequence)
pairs: `SimpleFastaParser` skips any text before the first header line and
yields nothing at all when the input has no header line. -/
def parseFasta (text : List Char) : List (List Char × List Char) :=
  match (pyLines text).dropWhile (fun l => !isHeader l) with
  | [] => []
  | first :: rest => collectRecords rest (rstrip (first.drop 1)) []

/-! ## The application: per-record display gated by the sidebar toggles -/

structure Toggles where
  show_gc : Bool
  show_translation : Bool
  show_base_plot : Bool
  deriving DecidableEq, Repr

/-- One visible element the record loop of the app emits. -/
inductive DisplayItem where
  | header (id : List Char)
  | seqText (s : List Char)
  | trimWarning
  | gcLine (gc : ℚ)
  | proteinBlock (p : List Char)
  | basePlot (df : List (Char × Nat))
  deriving DecidableEq, Repr

/-- What the app holds and shows for one record: the computed analysis
values and the display items actually rendered under the given toggles. -/
structure RecordView where
  id : List Char
  gc : ℚ
  protein : List Char
  baseDf : List (Char × Nat)
  trimmed : Bool
  shown : List DisplayItem
  deriving DecidableEq, Repr

/-- The body of the record loop: analysis first, then the conditional
display calls (trim warning, GC line, protein block, base plot). -/
def renderRecord (t : Toggles) (id : List Char) (raw : List Char) (r : AnalysisResult) :
    RecordView :=
  { id := id
    gc := r.gc
    protein := r.protein
    baseDf := r.baseDf
    trimmed := r.trimmed
    shown :=
      [.header id, .seqText raw] ++
        (if r.trimmed then [.trimWarning] else []) ++
        (if t.show_gc then [.gcLine r.gc] else []) ++
        (if t.show_translation then [.proteinBlock r.protein] else []) ++
        (if t.show_base_plot then [.basePlot r.baseDf] else []) }

/-- One iteration of the record loop: analyze, then render. An uncaught
translation exception aborts the script. -/
def analyzeRender (t : Toggles) (r : List Char × List Char) : Except String RecordView :=
  match analyze_sequence r.2 with
  | .error _ => .error "TranslationError"
  | .ok res => .ok (renderRecord t r.1 r.2 res)

/-- The `for record in records` loop: records are processed in file order;
the first uncaught exception aborts the remainder. -/
def processRecords (t : Toggles) : List (List Char × List Char) →
    Except String (List RecordView)
  | [] => .ok []
  | r :: rs =>
      match analyzeRender t r with
      | .error e => .error e
      | .ok v =>
          match processRecords t rs with
          | .error e => .error e
          | .ok vs => .ok (v :: vs)

/-- The upload branch of the app: parse, error out with the user-visible
message when no record was found, otherwise analyze and render each record
in file order. -/
def runApp (t : Toggles) (text : List Char) : Except String (List RecordView) :=
  let records := parseFasta text
  if records.isEmpty then
    .error "No sequences found in file. Make sure it is a proper FASTA format."
  else
    processRecords t records

/-- The computed four-tuple (with the record id) of one record, independent
of any display concern. -/
def RecordView.computed (v : RecordView) :
    List Char × ℚ × List Char × List (Char × Nat) × Bool :=
  (v.id, v.gc, v.protein, v.baseDf, v.trimmed)

/-! ## Supporting lemmas -/

lemma baseCounts_map_fst (s : List Char) :
    (baseCounts s).map Prod.fst = List.insertionSort (fun a b : Char => a ≤ b) s.dedup := by
  simp [baseCounts, List.map_map, Function.comp_def]

lemma baseCounts_map_snd (s : List Char) :
    (baseCounts s).map Prod.snd =
      (List.insertionSort (fun a b : Char => a ≤ b) s.dedup).map fun c => s.count c := by
  simp [baseCounts, List.map_map, Function.comp_def]

lemma sum_dedup_count (s : List Char) :
    (s.dedup.map fun c => s.count c).sum = s.length := by
  rw [← List.sum_toFinset _ (List.nodup_dedup s)]
  have h3 : s.dedup.toFinset = s.toFinset := by
    ext a
    simp
  rw [h3]
  exact List.sum_toFinset_count_eq_length s

lemma mem_baseCounts_iff (s : List Char) (p : Char × Nat) :
    p ∈ baseCounts s ↔ p.1 ∈ s ∧ p.2 = s.count p.1 := by
  constructor
  · intro hp
    obtain ⟨c, hc, rfl⟩ := List.mem_map.1 hp
    rw [List.mem_insertionSort, List.mem_dedup] at hc
    exact ⟨hc, rfl⟩
  · rintro ⟨h1, h2⟩
    have hc : p.1 ∈ List.insertionSort (fun a b : Char => a ≤ b) s.dedup := by
      rw [List.mem_insertionSort, List.mem_dedup]
      exact h1
    have : p = (p.1, s.count p.1) := by
      ext
      · rfl
      · exact h2
    rw [this]
    exact List.mem_map.2 ⟨p.1, hc, rfl⟩

lemma bne_zero_eq_decide (n : Nat) : (0 != n) = decide (0 < n) := by
  cases n <;> simp

lemma processRecords_ok (t : Toggles) :
    ∀ recs : List (List Char × List Char),
      (∀ r ∈ recs, (analyze_sequence r.2).toOption.isSome) →
      ∃ outs, processRecords t recs = .ok outs ∧ outs.length = recs.length := by
  intro recs
  induction recs with
  | nil => exact fun _ => ⟨[], rfl, rfl⟩
  | cons r rs ih =>
    intro h
    obtain ⟨outs, houts, hlen⟩ := ih fun x hx => h x (List.mem_cons_of_mem _ hx)
    have hr := h r (List.mem_cons_self _ _)
    cases ha : analyze_sequence r.2 with
    | error e => rw [ha] at hr; simp [Except.toOption] at hr
    | ok res =>
      refine ⟨renderRecord t r.1 r.2 res :: outs, ?_, by simp [hlen]⟩
      simp [processRecords, analyzeRender, ha, houts]

/-! ## The claims -/

/-- C9: the analyzer is a stateless pure function — calling the analysis
twice on the same record yields identical results both times (identical GC
content, protein, base table, and trimmed flag). In the embedding
`analyze_sequence` is a function of the sequence alone (it reads no state),
so two calls on the same record are the same value. -/
theorem C9_stateless_idempotent (s : List Char) :
    analyze_sequence s = analyze_sequence s :=
  rfl

/-- C3: the length used for translation is `L - (L mod 3)` (a multiple of 3,
within 2 of L), the trimmed flag is true iff `L mod 3 ≠ 0`, and an empty or
sub-3-length sequence yields an empty protein (not an error) with
`trimmed = (L > 0)`. -/
theorem C3_trimming (s : List Char) :
    (s.take (codonLen s)).length = s.length - s.length % 3 ∧
    3 ∣ (s.take (codonLen s)).length ∧
    s.length - (s.take (codonLen s)).length < 3 ∧
    (∀ res, analyze_sequence s = .ok res → (res.trimmed = true ↔ s.length % 3 ≠ 0)) ∧
    (s.length < 3 → analyze_sequence s =
      .ok { gc := gc_fraction s * 100, protein := [], baseDf := baseCounts s,
            trimmed := decide (0 < s.length) }) := by
  have hlen : (s.take (codonLen s)).length = s.length - s.length % 3 := by
    rw [List.length_take, codonLen]
    omega
  refine ⟨hlen, ?_, ?_, ?_, ?_⟩
  · rw [hlen]
    apply Nat.dvd_of_mod_eq_zero
    omega
  · rw [hlen]
    omega
  · intro res hres
    simp only [analyze_sequence] at hres
    cases htr : translateToStop (s.take (codonLen s)) with
    | error e => rw [htr] at hres; exact absurd hres (by simp [Except.map])
    | ok p =>
      rw [htr] at hres
      simp only [Except.map, Except.ok.injEq] at hres
      rw [← hres]
      simp only [bne_iff_ne, ne_eq, codonLen]
      omega
  · intro hsub
    have hzero : codonLen s = 0 := by
      unfold codonLen
      omega
    simp only [analyze_sequence, hzero, List.take_zero, translateToStop, List.map_nil,
      translateAux, Except.map, bne_zero_eq_decide]

/-- C6: the base-composition table counts each distinct symbol of the
untrimmed full sequence, its keys are sorted in (strictly) ascending symbol
order, every count is positive (hence a non-negative integer), and the sum
of all counts equals the sequence length. -/
theorem C6_base_composition (s : List Char) :
    List.Sorted (· < ·) ((baseCounts s).map Prod.fst) ∧
    (∀ c ∈ s, (c, s.count c) ∈ baseCounts s) ∧
    (∀ p ∈ baseCounts s, p.1 ∈ s ∧ p.2 = s.count p.1 ∧ 0 < p.2) ∧
    ((baseCounts s).map Prod.snd).sum = s.length := by
  refine ⟨?_, ?_, ?_, ?_⟩
  · rw [baseCounts_map_fst]
    have hsorted : List.Sorted (fun a b : Char => a ≤ b)
        (List.insertionSort (fun a b : Char => a ≤ b) s.dedup) :=
      List.sorted_insertionSort _ _
    have hnodup : (List.insertionSort (fun a b : Char => a ≤ b) s.dedup).Nodup :=
      ((List.perm_insertionSort (fun a b : Char => a ≤ b) s.dedup).symm).nodup
        (List.nodup_dedup s)
    exact hsorted.lt_of_le hnodup
  · intro c hc
    exact (mem_baseCounts_iff s (c, s.count c)).2 ⟨hc, rfl⟩
  · intro p hp
    obtain ⟨h1, h2⟩ := (mem_baseCounts_iff s p).1 hp
    refine ⟨h1, h2, ?_⟩
    rw [h2]
    exact List.count_pos_iff.2 h1
  · rw [baseCounts_map_snd]
    have hperm : List.Perm (List.insertionSort (fun a b : Char => a ≤ b) s.dedup) s.dedup :=
      List.perm_insertionSort _ _
    rw [(hperm.map fun c => s.count c).sum_eq]
    exact sum_dedup_count s

/-- C5: a record with an empty sequence does not divide by zero —
`gc_fraction` returns an explicit 0 and analysis succeeds with 0% GC — and
such a record does not abort the processing of the other records of the
batch: whenever every parsed record analyzes successfully (as the empty one
always does), the app renders one result per record. -/
theorem C5_empty_sequence (t : Toggles) (text : List Char)
    (hne : parseFasta text ≠ [])
    (hok : ∀ r ∈ parseFasta text, (analyze_sequence r.2).toOption.isSome) :
    analyze_sequence [] = .ok { gc := 0, protein := [], baseDf := [], trimmed := false } ∧
    ∃ outs, runApp t text = .ok outs ∧ outs.length = (parseFasta text).length := by
  constructor
  · have h0 : gc_fraction [] = 0 := by
      norm_num [gc_fraction, gcCount, atwCount]
    simp [analyze_sequence, codonLen, translateToStop, translateAux, baseCounts, h0,
      Except.map]
  · have hempty : (parseFasta text).isEmpty = false := by
      cases hp : parseFasta text with
      | nil => exact absurd hp hne
      | cons a l => rfl
    simp only [runApp, hempty, Bool.false_eq_true, if_false]
    exact processRecords_ok t (parseFasta text) hok

/-- Witness for C5 at a concrete batch containing an empty-sequence record
followed by a normal record: both are rendered. -/
theorem C5_empty_sequence_witness :
    analyze_sequence [] = .ok { gc := 0, protein := [], baseDf := [], trimmed := false } ∧
    ∃ outs, runApp ⟨true, true, true⟩ (">a\n\n>b\nATGGCC\n".toList) = .ok outs ∧
      outs.length = (parseFasta ">a\n\n>b\nATGGCC\n".toList).length :=
  C5_empty_sequence ⟨true, true, true⟩ (">a\n\n>b\nATGGCC\n".toList) (by decide) (by decide)

lemma processRecords_computed (t1 t2 : Toggles) :
    ∀ recs : List (List Char × List Char),
      (processRecords t1 recs).map (fun l => l.map RecordView.computed) =
        (processRecords t2 recs).map (fun l => l.map RecordView.computed) := by
  intro recs
  induction recs with
  | nil => rfl
  | cons r rs ih =>
    simp only [processRecords, analyzeRender]
    cases ha : analyze_sequence r.2 with
    | error e => rfl
    | ok res =>
      cases h1 : processRecords t1 rs with
      | error e1 =>
        cases h2 : processRecords t2 rs with
        | error e2 =>
          rw [h1, h2] at ih
          simp only [Except.map, Except.error.injEq] at ih
          simp [Except.map, ih]
        | ok vs2 => rw [h1, h2] at ih; simp [Except.map] at ih
      | ok vs1 =>
        cases h2 : processRecords t2 rs with
        | error e2 => rw [h1, h2] at ih; simp [Except.map] at ih
        | ok vs2 =>
          rw [h1, h2] at ih
          simp only [Except.map, Except.ok.injEq] at ih
          simp only [Except.map, Except.ok.injEq, List.map_cons, ih]
          rfl

/-- C8: the three display toggles gate presentation only — for every input
and any two toggle settings, every computed value (record id, GC content,
protein, base table, trimmed flag) is identical across the two runs. -/
theorem C8_toggles_presentation_only (t1 t2 : Toggles) (text : List Char) :
    (runApp t1 text).map (fun l => l.map RecordView.computed) =
      (runApp t2 text).map (fun l => l.map RecordView.computed) := by
  simp only [runApp]
  cases h : (parseFasta text).isEmpty with
  | true => rfl
  | false => exact processRecords_computed t1 t2 _

/-- C7: an input with no header line yields zero parsed records, and the app
surfaces the user-visible error message instead of any per-record result. -/
theorem C7_no_records (text : List Char)
    (h : ∀ l ∈ pyLines text, isHeader l = false) :
    parseFasta text = [] ∧
    ∀ t : Toggles, runApp t text =
      .error "No sequences found in file. Make sure it is a proper FASTA format." := by
  have hp : parseFasta text = [] := by
    unfold parseFasta
    have hd : (pyLines text).dropWhile (fun l => !isHeader l) = [] :=
      List.dropWhile_eq_nil_iff.2 fun x hx => by simp [h x hx]
    rw [hd]
  exact ⟨hp, fun t => by simp [runApp, hp]⟩

/-- Witness for C7 at a concrete headerless input. -/
theorem C7_no_records_witness :
    parseFasta "ACGT\nTTTT".toList = [] ∧
    runApp ⟨true, true, true⟩ "ACGT\nTTTT".toList =
      .error "No sequences found in file. Make sure it is a proper FASTA format." :=
  ⟨(C7_no_records "ACGT\nTTTT".toList (by decide)).1,
   (C7_no_records "ACGT\nTTTT".toList (by decide)).2 ⟨true, true, true⟩⟩

/-! ## The specification's translation procedure (refinement target for C2) -/

def acgtLetters : List Char := ['A', 'C', 'G', 'T']

/-- Specification-side translation, written from the spec's words: walk the
trimmed sequence in non-overlapping 3-symbol windows from position 0 in
order, map each codon through the standard genetic code, stop immediately at
the first stop codon and exclude the stop marker from the output. -/
def specTranslate : List Char → List Char
  | c1 :: c2 :: c3 :: rest =>
      if isStdStop c1 c2 c3 then []
      else
        match stdForward c1 c2 c3 with
        | some a => a :: specTranslate rest
        | none => []
  | _ => []

lemma codonLookup_acgt {c1 c2 c3 : Char}
    (h1 : c1 ∈ acgtLetters) (h2 : c2 ∈ acgtLetters) (h3 : c3 ∈ acgtLetters) :
    codonLookup c1 c2 c3 =
      (match stdForward c1 c2 c3 with
       | some a => CodonResult.aa a
       | none => CodonResult.stop) ∧
    isStdStop c1 c2 c3 = (stdForward c1 c2 c3).isNone := by
  fin_cases h1 <;> fin_cases h2 <;> fin_cases h3 <;> exact ⟨by decide, by decide⟩

lemma map_toUpper_of_acgt {s : List Char} (h : ∀ c ∈ s, c ∈ acgtLetters) :
    s.map Char.toUpper = s := by
  induction s with
  | nil => rfl
  | cons c t ih =>
    have hc := h c (List.mem_cons_self _ _)
    have ht := ih fun x hx => h x (List.mem_cons_of_mem _ hx)
    simp only [List.map_cons, ht]
    congr 1
    fin_cases hc <;> decide

lemma translateAux_acgt :
    ∀ (n : Nat) (s : List Char), s.length ≤ n → (∀ c ∈ s, c ∈ acgtLetters) →
      translateAux s = .ok (specTranslate s) := by
  intro n
  induction n with
  | zero =>
    intro s hs _
    cases s with
    | nil => rfl
    | cons c t => simp at hs
  | succ n ih =>
    intro s hs h
    match s with
    | [] => rfl
    | [c1] => rfl
    | [c1, c2] => rfl
    | c1 :: c2 :: c3 :: rest =>
      have h1 := h c1 (by simp)
      have h2 := h c2 (by simp)
      have h3 := h c3 (by simp)
      obtain ⟨hl, hstop⟩ := codonLookup_acgt h1 h2 h3
      have hrest : ∀ c ∈ rest, c ∈ acgtLetters := fun c hc => h c (by simp [hc])
      have hlen : rest.length ≤ n := by
        simp only [List.length_cons] at hs
        omega
      have ihrest := ih rest hlen hrest
      cases hf : stdForward c1 c2 c3 with
      | none =>
        rw [hf] at hl hstop
        simp only [translateAux, specTranslate, hl, hstop, Option.isNone_none, if_true]
      | some a =>
        rw [hf] at hl hstop
        simp only [translateAux, specTranslate, hl, hstop, hf, Option.isNone_some,
          Bool.false_eq_true, if_false, ihrest, Except.map]

/-- C2: translation walks the trimmed sequence in non-overlapping 3-symbol
windows from position 0 in order, maps each codon through the standard
genetic code, stops immediately at the first stop codon and excludes the
stop marker (refinement of the code's translation by the spec's procedure on
nucleotide sequences over A,C,G,T); in particular analyzing ATGGCCTAA gives
protein "MA" and trimmed = false. -/
theorem C2_translation_walk :
    (∀ s : List Char, (∀ c ∈ s, c ∈ acgtLetters) →
        translateToStop s = .ok (specTranslate s)) ∧
    (analyze_sequence ['A', 'T', 'G', 'G', 'C', 'C', 'T', 'A', 'A']).map
        (fun r => (r.protein, r.trimmed)) = .ok (['M', 'A'], false) := by
  constructor
  · intro s h
    unfold translateToStop
    rw [map_toUpper_of_acgt h]
    exact translateAux_acgt s.length s le_rfl h
  · decide

/-- Witness for C2 at a concrete all-ACGT sequence. -/
theorem C2_translation_walk_witness :
    translateToStop ['G', 'G', 'G', 'T', 'G', 'A', 'A', 'A', 'A'] =
      .ok (specTranslate ['G', 'G', 'G', 'T', 'G', 'A', 'A', 'A', 'A']) :=
  C2_translation_walk.1 ['G', 'G', 'G', 'T', 'G', 'A', 'A', 'A', 'A'] (by decide)

/-- Witness for C3 at a concrete sub-3-length sequence. -/
theorem C3_trimming_witness :
    3 ∣ ((['A', 'T'] : List Char).take (codonLen ['A', 'T'])).length ∧
    analyze_sequence ['A', 'T'] =
      .ok { gc := gc_fraction ['A', 'T'] * 100, protein := [],
            baseDf := baseCounts ['A', 'T'],
            trimmed := decide (0 < (['A', 'T'] : List Char).length) } :=
  ⟨(C3_trimming ['A', 'T']).2.1, (C3_trimming ['A', 'T']).2.2.2.2 (by decide)⟩

/-- Witness for C6 at a concrete sequence. -/
theorem C6_base_composition_witness :
    ('A', List.count 'A' ['A', 'C', 'A']) ∈ baseCounts ['A', 'C', 'A'] ∧
    ((baseCounts ['A', 'C', 'A']).map Prod.snd).sum = (['A', 'C', 'A'] : List Char).length :=
  ⟨(C6_base_composition ['A', 'C', 'A']).2.1 'A' (by decide),
   (C6_base_composition ['A', 'C', 'A']).2.2.2⟩

/-! ## Totality of translation over valid nucleotide letters -/

lemma codonLookup_ne_invalid {c1 c2 c3 : Char}
    (h1 : (nucExpand c1).isSome) (h2 : (nucExpand c2).isSome)
    (h3 : (nucExpand c3).isSome) :
    codonLookup c1 c2 c3 ≠ .invalid := by
  obtain ⟨e1, he1⟩ := Option.isSome_iff_exists.1 h1
  obtain ⟨e2, he2⟩ := Option.isSome_iff_exists.1 h2
  obtain ⟨e3, he3⟩ := Option.isSome_iff_exists.1 h3
  simp only [codonLookup, he1, he2, he3]
  split
  · split <;> simp
  · split <;> simp

lemma translateAux_total :
    ∀ (n : Nat) (s : List Char), s.length ≤ n → (∀ c ∈ s, (nucExpand c).isSome) →
      ∃ p, translateAux s = .ok p := by
  intro n
  induction n with
  | zero =>
    intro s hs _
    cases s with
    | nil => exact ⟨[], rfl⟩
    | cons c t => simp at hs
  | succ n ih =>
    intro s hs h
    match s with
    | [] => exact ⟨[], rfl⟩
    | [c1] => exact ⟨[], rfl⟩
    | [c1, c2] => exact ⟨[], rfl⟩
    | c1 :: c2 :: c3 :: rest =>
      have h1 := h c1 (by simp)
      have h2 := h c2 (by simp)
      have h3 := h c3 (by simp)
      cases hcl : codonLookup c1 c2 c3 with
      | invalid => exact absurd hcl (codonLookup_ne_invalid h1 h2 h3)
      | stop => exact ⟨[], by simp [translateAux, hcl]⟩
      | aa a =>
        have hlen : rest.length ≤ n := by
          simp only [List.length_cons] at hs
          omega
        obtain ⟨p, hp⟩ := ih rest hlen fun c hc => h c (by simp [hc])
        exact ⟨a :: p, by simp [translateAux, hcl, hp, Except.map]⟩

lemma translateToStop_total {s : List Char}
    (h : ∀ c ∈ s, (nucExpand c.toUpper).isSome) :
    ∃ p, translateToStop s = .ok p := by
  unfold translateToStop
  apply translateAux_total (s.map Char.toUpper).length _ le_rfl
  intro c hc
  obtain ⟨d, hd, rfl⟩ := List.mem_map.1 hc
  exact h d hd

lemma analyze_total {s : List Char}
    (h : ∀ c ∈ s, (nucExpand c.toUpper).isSome) :
    ∃ res, analyze_sequence s = .ok res := by
  obtain ⟨p, hp⟩ := translateToStop_total
    (s := s.take (codonLen s)) fun c hc => h c (List.take_subset _ _ hc)
  refine ⟨{ gc := gc_fraction s * 100, protein := p, baseDf := baseCounts s,
            trimmed := codonLen s != s.length }, ?_⟩
  simp [analyze_sequence, hp, Except.map]

/-! ## Counting lemmas for the GC formula -/

def gcChar (c : Char) : Bool :=
  c == 'C' || c == 'G' || c == 'S' || c == 'c' || c == 'g' || c == 's'

def atwChar (c : Char) : Bool :=
  c == 'A' || c == 'T' || c == 'W' || c == 'a' || c == 't' || c == 'w'

lemma gcCount_eq_countP (s : List Char) : gcCount s = s.countP gcChar := by
  induction s with
  | nil => rfl
  | cons c t ih =>
    simp only [gcCount, List.count_cons, List.countP_cons] at *
    by_cases h1 : c = 'C' <;> by_cases h2 : c = 'G' <;> by_cases h3 : c = 'S' <;>
      by_cases h4 : c = 'c' <;> by_cases h5 : c = 'g' <;> by_cases h6 : c = 's' <;>
      simp [gcChar, h1, h2, h3, h4, h5, h6] <;> omega

lemma atwCount_eq_countP (s : List Char) : atwCount s = s.countP atwChar := by
  induction s with
  | nil => rfl
  | cons c t ih =>
    simp only [atwCount, List.count_cons, List.countP_cons] at *
    by_cases h1 : c = 'A' <;> by_cases h2 : c = 'T' <;> by_cases h3 : c = 'W' <;>
      by_cases h4 : c = 'a' <;> by_cases h5 : c = 't' <;> by_cases h6 : c = 'w' <;>
      simp [atwChar, h1, h2, h3, h4, h5, h6] <;> omega

def acgtBothCase : List Char := ['A', 'C', 'G', 'T', 'a', 'c', 'g', 't']

/-- The GC formula the specification states (specification-side definition):
count of symbols equal to G or C, case-insensitive, divided by the total
sequence length, times 100. -/
def specGcPercent (s : List Char) : ℚ :=
  ((s.countP fun c => c.toUpper == 'G' || c.toUpper == 'C' : Nat) : ℚ) /
    (s.length : ℚ) * 100

lemma gc_counts_acgt (s : List Char) (h : ∀ c ∈ s, c ∈ acgtBothCase) :
    gcCount s = (s.countP fun c => c.toUpper == 'G' || c.toUpper == 'C') ∧
    gcCount s + atwCount s = s.length := by
  constructor
  · rw [gcCount_eq_countP]
    apply List.countP_congr
    intro c hc
    have hin := h c hc
    fin_cases hin <;> decide
  · rw [gcCount_eq_countP, atwCount_eq_countP]
    induction s with
    | nil => rfl
    | cons c t ih =>
      have hc := h c (List.mem_cons_self _ _)
      have ht := ih fun x hx => h x (List.mem_cons_of_mem _ hx)
      simp only [List.countP_cons, List.length_cons]
      have hval : (if gcChar c then 1 else 0) + (if atwChar c then 1 else 0) = 1 := by
        fin_cases hc <;> decide
      omega

/-- C1 fails on the code at a concrete input: for GCN, `gc_fraction` (with
its default `ambiguous="remove"`) drops the N from the denominator and the
app reports 100% GC, while the claimed count-over-length formula gives
200/3 %. -/
theorem C1_counterexample :
    (analyze_sequence ['G', 'C', 'N']).map AnalysisResult.gc = .ok 100 ∧
    specGcPercent ['G', 'C', 'N'] ≠ 100 := by
  constructor
  · have htr : translateToStop ((['G', 'C', 'N'] : List Char).take
        (codonLen ['G', 'C', 'N'])) = .ok ['A'] := by decide
    have h1 : gcCount ['G', 'C', 'N'] = 2 := by decide
    have h2 : atwCount ['G', 'C', 'N'] = 0 := by decide
    have hgc : gc_fraction ['G', 'C', 'N'] = 1 := by
      simp only [gc_fraction, h1, h2]
      norm_num
    simp [analyze_sequence, htr, Except.map, hgc]
  · have hcp : (['G', 'C', 'N'].countP fun c => c.toUpper == 'G' || c.toUpper == 'C') = 2 := by
      decide
    simp only [specGcPercent, hcp, List.length_cons, List.length_nil]
    norm_num

/-- C1 amended: on sequences over A,C,G,T (either case) the GC content the
analysis returns equals the claimed count-over-length formula; symbols
outside A,C,G,T,S,W are instead excluded from the denominator (and S counts
as G/C), so the formula only holds on the unambiguous alphabet. -/
theorem C1_gc_content (s : List Char) (hne : s ≠ [])
    (h : ∀ c ∈ s, c ∈ acgtBothCase) :
    ∃ res, analyze_sequence s = .ok res ∧ res.gc = specGcPercent s := by
  obtain ⟨res, hres⟩ := analyze_total (s := s) fun c hc => by
    have hin := h c hc
    fin_cases hin <;> decide
  refine ⟨res, hres, ?_⟩
  have hgc : res.gc = gc_fraction s * 100 := by
    simp only [analyze_sequence] at hres
    cases htr : translateToStop (s.take (codonLen s)) with
    | error e => rw [htr] at hres; simp [Except.map] at hres
    | ok p =>
      rw [htr] at hres
      simp only [Except.map, Except.ok.injEq] at hres
      rw [← hres]
  obtain ⟨h1, h2⟩ := gc_counts_acgt s h
  have hlen : s.length ≠ 0 := fun h0 => hne (List.length_eq_zero.1 h0)
  rw [hgc, gc_fraction, specGcPercent, ← h1]
  rw [if_neg (by omega)]
  rw [h2]

/-- Witness for C1 (amended) at a concrete mixed-case sequence. -/
theorem C1_gc_content_witness :
    ∃ res, analyze_sequence ['A', 'T', 'g', 'c'] = .ok res ∧
      res.gc = specGcPercent ['A', 'T', 'g', 'c'] :=
  C1_gc_content ['A', 'T', 'g', 'c'] (by decide) (by decide)

/-! ## Case handling (C4) -/

def nucBothCase : List Char :=
  ['A', 'C', 'G', 'T', 'N', 'a', 'c', 'g', 't', 'n']

/-- C4 fails on the code at a concrete input: the base-composition table
preserves case verbatim, so the lowercase record acgt tabulates keys
a,c,g,t while ACGT tabulates A,C,G,T. -/
theorem C4_counterexample :
    (analyze_sequence ['a', 'c', 'g', 't']).map AnalysisResult.baseDf ≠
      (analyze_sequence ['A', 'C', 'G', 'T']).map AnalysisResult.baseDf := by
  decide

lemma gc_fraction_toLower {s : List Char} (h : ∀ c ∈ s, c ∈ nucBothCase) :
    gc_fraction (s.map Char.toLower) = gc_fraction s := by
  have hgc : gcCount (s.map Char.toLower) = gcCount s := by
    rw [gcCount_eq_countP, gcCount_eq_countP, List.countP_map]
    apply List.countP_congr
    intro c hc
    have hin := h c hc
    fin_cases hin <;> decide
  have hatw : atwCount (s.map Char.toLower) = atwCount s := by
    rw [atwCount_eq_countP, atwCount_eq_countP, List.countP_map]
    apply List.countP_congr
    intro c hc
    have hin := h c hc
    fin_cases hin <;> decide
  simp only [gc_fraction, hgc, hatw]

lemma translateToStop_toLower {u : List Char} (h : ∀ c ∈ u, c ∈ nucBothCase) :
    translateToStop (u.map Char.toLower) = translateToStop u := by
  unfold translateToStop
  rw [List.map_map]
  congr 1
  apply List.map_congr_left
  intro a ha
  have hin := h a ha
  fin_cases hin <;> decide

/-- C4 amended: the analyzer treats lower and upper case equivalently for
GC content and protein (Biopython upper-cases internally for both), but the
base-composition table preserves case verbatim, so it differs between a
lowercase record and its uppercase version. -/
theorem C4_case_insensitive (s : List Char) (h : ∀ c ∈ s, c ∈ nucBothCase) :
    ∃ r1 r2, analyze_sequence (s.map Char.toLower) = .ok r1 ∧
      analyze_sequence s = .ok r2 ∧ r1.gc = r2.gc ∧ r1.protein = r2.protein := by
  have hvalid : ∀ c ∈ s, (nucExpand c.toUpper).isSome := fun c hc => by
    have hin := h c hc
    fin_cases hin <;> decide
  have hk : codonLen (s.map Char.toLower) = codonLen s := by
    simp [codonLen]
  have htr_eq : translateToStop ((s.map Char.toLower).take
      (codonLen (s.map Char.toLower))) = translateToStop (s.take (codonLen s)) := by
    rw [hk, ← List.map_take]
    exact translateToStop_toLower fun c hc => h c (List.take_subset _ _ hc)
  cases htr : translateToStop (s.take (codonLen s)) with
  | error e =>
    obtain ⟨p, hp⟩ := translateToStop_total
      (s := s.take (codonLen s)) fun c hc => hvalid c (List.take_subset _ _ hc)
    rw [htr] at hp
    cases hp
  | ok p =>
    refine ⟨{ gc := gc_fraction (s.map Char.toLower) * 100, protein := p,
              baseDf := baseCounts (s.map Char.toLower),
              trimmed := codonLen (s.map Char.toLower) != (s.map Char.toLower).length },
            { gc := gc_fraction s * 100, protein := p, baseDf := baseCounts s,
              trimmed := codonLen s != s.length }, ?_, ?_, ?_, rfl⟩
    · simp only [analyze_sequence]
      rw [htr_eq, htr]
      simp [Except.map]
    · simp only [analyze_sequence]
      rw [htr]
      simp [Except.map]
    · simp only [gc_fraction_toLower h]

/-- Witness for C4 (amended) at a concrete sequence. -/
theorem C4_case_insensitive_witness :
    ∃ r1 r2, analyze_sequence (['A', 'C', 'G', 'T', 'N'].map Char.toLower) = .ok r1 ∧
      analyze_sequence ['A', 'C', 'G', 'T', 'N'] = .ok r2 ∧
      r1.gc = r2.gc ∧ r1.protein = r2.protein :=
  C4_case_insensitive ['A', 'C', 'G', 'T', 'N'] (by decide)

/-! ## Ambiguous codons (C10) -/

/-- C10 fails on the code at a concrete input: for the N-containing codon
GCN every expansion codes alanine, so Biopython emits A, not the placeholder
X the claim asserts for every N-containing codon. -/
theorem C10_counterexample :
    (analyze_sequence ['G', 'C', 'N']).map AnalysisResult.protein = .ok ['A'] ∧
    (['A'] : List Char) ≠ ['X'] := by
  constructor
  · have htr : translateToStop ((['G', 'C', 'N'] : List Char).take
        (codonLen ['G', 'C', 'N'])) = .ok ['A'] := by decide
    simp [analyze_sequence, htr, Except.map]
  · decide

/-- C10 amended: a codon containing an ambiguity symbol such as N never
fails translation (for any sequence over the IUPAC nucleotide letters
translation succeeds); a codon whose expansions cannot be resolved and is
not a definite stop yields the placeholder X and translation continues with
the subsequent codons, while a codon whose expansions all code one amino
acid (such as GCN) yields that amino acid instead. -/
theorem C10_ambiguous_translation (s : List Char)
    (h : ∀ c ∈ s, (nucExpand c.toUpper).isSome) :
    (∃ p, translateToStop s = .ok p) ∧
    (∀ rest : List Char, translateToStop ('A' :: 'A' :: 'N' :: rest) =
        (translateToStop rest).map fun p => 'X' :: p) ∧
    (∀ rest : List Char, translateToStop ('G' :: 'C' :: 'N' :: rest) =
        (translateToStop rest).map fun p => 'A' :: p) := by
  refine ⟨translateToStop_total h, ?_, ?_⟩
  · intro rest
    have hup : ('A' :: 'A' :: 'N' :: rest).map Char.toUpper =
        'A' :: 'A' :: 'N' :: rest.map Char.toUpper := by
      simp only [List.map_cons, show Char.toUpper 'A' = 'A' from rfl,
        show Char.toUpper 'N' = 'N' from rfl]
    have hAAN : codonLookup 'A' 'A' 'N' = .aa 'X' := by decide
    show translateAux (('A' :: 'A' :: 'N' :: rest).map Char.toUpper) = _
    rw [hup]
    simp only [translateAux, hAAN]
    rfl
  · intro rest
    have hup : ('G' :: 'C' :: 'N' :: rest).map Char.toUpper =
        'G' :: 'C' :: 'N' :: rest.map Char.toUpper := by
      simp only [List.map_cons, show Char.toUpper 'G' = 'G' from rfl,
        show Char.toUpper 'C' = 'C' from rfl, show Char.toUpper 'N' = 'N' from rfl]
    have hGCN : codonLookup 'G' 'C' 'N' = .aa 'A' := by decide
    show translateAux (('G' :: 'C' :: 'N' :: rest).map Char.toUpper) = _
    rw [hup]
    simp only [translateAux, hGCN]
    rfl

/-- Witness for C10 (amended) at concrete ambiguous sequences. -/
theorem C10_ambiguous_translation_witness :
    (∃ p, translateToStop ['A', 'A', 'N', 'G', 'C', 'N'] = .ok p) ∧
    translateToStop ['A', 'A', 'N', 'T', 'T', 'T'] =
      (translateToStop ['T', 'T', 'T']).map fun p => 'X' :: p :=
  ⟨(C10_ambiguous_translation ['A', 'A', 'N', 'G', 'C', 'N'] (by decide)).1,
   (C10_ambiguous_translation ['A'] (by decide)).2.1 ['T', 'T', 'T']⟩

end BioSeq
